import Mathlib

/-!
Verification of the crossword CSP engine of this repository
(src/crossword/generate.py, class CrosswordCreator).

Python strings are modelled as lists of characters, the Domain Store
(the dict self.domains, keyed by the puzzle variables) as its
total-function extension, assignments (Python dicts from variables to
words) as association lists in insertion order, and the two loops whose
termination Python leaves implicit (ac3 and backtrack) take explicit
fuel, returning none when it runs out.
-/

namespace CrosswordGen

/-- Direction of a slot (Variable.ACROSS / Variable.DOWN). -/
inductive Direction where
  | across
  | down
deriving DecidableEq, Repr

/-- A slot: identity is (row i, column j, direction, length). -/
structure Variable where
  i : Nat
  j : Nat
  dir : Direction
  length : Nat
deriving DecidableEq, Repr

/-- A word of the vocabulary: a Python string. -/
abbrev Word := List Char

/-- Modelled from the spec: the Puzzle Structure (the class Crossword of
this repository, whose file is not under src/): the slot list, the
vocabulary, and the precomputed overlap relation (None for a pair with
no shared cell). -/
structure Puzzle where
  vars : List Variable
  words : List Word
  overlaps : Variable → Variable → Option (Nat × Nat)

/-- Modelled from the spec: Crossword.neighbors — the slots sharing a
non-null overlap with a given slot. -/
def neighbors (c : Puzzle) (v : Variable) : List Variable :=
  c.vars.filter (fun w => (w != v) && (c.overlaps v w).isSome)

/-- Modelled from the spec: the guarantees of the Puzzle Structure
provider — slots are distinct non-empty runs of cells, no slot overlaps
itself, and the overlap relation is symmetric with swapped, in-bounds
indices. -/
def WF (c : Puzzle) : Prop :=
  c.vars.Nodup ∧
  (∀ x ∈ c.vars, 1 ≤ x.length) ∧
  (∀ x ∈ c.vars, c.overlaps x x = none) ∧
  (∀ x ∈ c.vars, ∀ y ∈ c.vars,
    c.overlaps y x = (c.overlaps x y).map (fun p => (p.2, p.1))) ∧
  (∀ x ∈ c.vars, ∀ y ∈ c.vars,
    (c.overlaps x y).all (fun p =>
      decide (p.1 < x.length) && decide (p.2 < y.length)) = true)

/-- The Domain Store: the dict self.domains. -/
abbrev DomainStore := Variable → List Word

/-- CrosswordCreator.__init__: every variable starts with a copy of the
full vocabulary. -/
def initDomains (c : Puzzle) : DomainStore := fun _ => c.words

/-- CrosswordCreator.enforce_node_consistency: iterate a copy of each
domain and remove every word whose length differs from the slot length;
the net effect on a domain is a filter. -/
def enforce_node_consistency (d : DomainStore) : DomainStore :=
  fun v => (d v).filter (fun w => w.length == v.length)

/-- The comprehension inside CrosswordCreator.revise: some word of
domain(y) agrees with wx at the overlap letters and differs from wx. -/
def hasSupport (dy : List Word) (xi yj : Nat) (wx : Word) : Bool :=
  dy.any (fun wy => (wx.get? xi == wy.get? yj) && (wx != wy))

/-- CrosswordCreator.revise x y: when the overlap is None do nothing;
otherwise drop from domain(x) every word with no support in domain(y).
Returns the revised flag and the updated store. -/
def revise (c : Puzzle) (d : DomainStore) (x y : Variable) :
    Bool × DomainStore :=
  match c.overlaps x y with
  | none => (false, d)
  | some p =>
      ((d x).any (fun wx => !(hasSupport (d y) p.1 p.2 wx)),
       fun v => if v = x then (d x).filter (hasSupport (d y) p.1 p.2) else d v)

/-- The seeding loop of CrosswordCreator.ac3: every ordered pair of
distinct variables with a non-null overlap, in nested-loop order. -/
def allArcs (c : Puzzle) : List (Variable × Variable) :=
  c.vars.flatMap (fun v1 =>
    (c.vars.filter (fun v2 => (v1 != v2) && (c.overlaps v1 v2).isSome)).map
      (fun v2 => (v1, v2)))

/-- The queue initialisation of CrosswordCreator.ac3: the Python test
`if arcs:` is false both for None and for an empty list, and in both
cases the full arc list is generated. -/
def initialQueue (c : Puzzle)
    (arcs : Option (List (Variable × Variable))) :
    List (Variable × Variable) :=
  match arcs with
  | some (a :: rest) => a :: rest
  | _ => allArcs c

/-- The worklist loop of CrosswordCreator.ac3: pop the front pair,
revise, fail when the revised domain is empty, otherwise re-enqueue
(z, x) for every neighbor z of x other than y. -/
def ac3Go (c : Puzzle) :
    Nat → List (Variable × Variable) → DomainStore →
    Option (Bool × DomainStore)
  | _, [], d => some (true, d)
  | 0, _ :: _, _ => none
  | fuel + 1, (x, y) :: rest, d =>
      if (revise c d x y).1 then
        if (revise c d x y).2 x = [] then some (false, (revise c d x y).2)
        else
          ac3Go c fuel
            (rest ++ ((neighbors c x).filter (fun z => z != y)).map
              (fun z => (z, x))) (revise c d x y).2
      else ac3Go c fuel rest d

/-- CrosswordCreator.ac3. -/
def ac3 (c : Puzzle) (d : DomainStore)
    (arcs : Option (List (Variable × Variable))) (fuel : Nat) :
    Option (Bool × DomainStore) :=
  ac3Go c fuel (initialQueue c arcs) d

/-- An assignment: a Python dict from variables to words (a value may be
None); entries are kept in insertion order. -/
abbrev Assignment := List (Variable × Option Word)

/-- The key list of an assignment dict. -/
def keys (a : Assignment) : List Variable := a.map (fun p => p.1)

/-- Dict lookup: the first entry with the given key wins. -/
def lookupA : Assignment → Variable → Option (Option Word)
  | [], _ => none
  | p :: rest, v => if p.1 = v then some p.2 else lookupA rest v

/-- Python truthiness of a dict value: None and the empty string are
falsy. -/
def falsyV : Option Word → Bool
  | none => true
  | some w => w.isEmpty

/-- The test `var not in assignment or not assignment[var]` of
select_unassigned_variable. -/
def unassignedB (a : Assignment) (v : Variable) : Bool :=
  match lookupA a v with
  | none => true
  | some ov => falsyV ov

/-- The dict update new_assignment[var] = word: replace the value in
place when the key exists, else append the new entry. -/
def dinsert (a : Assignment) (k : Variable) (ov : Option Word) :
    Assignment :=
  if (keys a).contains k then
    a.map (fun p => if p.1 = k then (k, ov) else p)
  else a ++ [(k, ov)]

/-- CrosswordCreator.assignment_complete: every crossword variable is a
key of the dict and its value is not None. -/
def assignment_complete (c : Puzzle) (a : Assignment) : Bool :=
  c.vars.all (fun v =>
    match lookupA a v with
    | some (some _) => true
    | _ => false)

/-- The character the neighbor check of consistent reads, totalised:
assignment[v2][j] as an optional character. -/
def overlapChar (a : Assignment) (v2 : Variable) (j : Nat) : Option Char :=
  match lookupA a v2 with
  | some (some w2) => w2.get? j
  | _ => none

/-- The neighbor loop of CrosswordCreator.consistent, totalised: a
missing character on either side reads as a mismatch. -/
def neighborsOk (c : Puzzle) (a : Assignment) (v1 : Variable) (w : Word) :
    Bool :=
  (neighbors c v1).all (fun v2 =>
    if (keys a).contains v2 then
      match c.overlaps v1 v2 with
      | some p => w.get? p.1 == overlapChar a v2 p.2
      | none => true
    else true)

/-- CrosswordCreator.consistent, totalised (consistentRun below is the
exact model, with exceptions): for each entry with a truthy word, the
word occurs at most once among the dict values, has the length of its
slot, and agrees with every assigned neighbor at the overlap. -/
def consistentB (c : Puzzle) (a : Assignment) : Bool :=
  a.all (fun p =>
    match p.2 with
    | none => true
    | some w =>
        if w.isEmpty then true
        else
          decide ((a.map (fun q => q.2)).count (some w) ≤ 1) &&
          (w.length == p.1.length) &&
          neighborsOk c a p.1 w)

/-- The precondition of the consistent check, on one entry: the value is
a non-None word whose length matches the slot length. -/
def boundOk (p : Variable × Option Word) : Bool :=
  match p.2 with
  | some u => u.length == p.1.length
  | none => false

/-- The neighbor loop of CrosswordCreator.consistent, exact: none models
a raised exception (unpacking a None overlap, subscripting a None value,
or indexing out of range). -/
def checkNeighbors (c : Puzzle) (a : Assignment) (v1 : Variable)
    (w : Word) : List Variable → Option Bool
  | [] => some true
  | v2 :: rest =>
      if (keys a).contains v2 then
        match c.overlaps v1 v2 with
        | none => none
        | some p =>
            match w.get? p.1 with
            | none => none
            | some ci =>
                match lookupA a v2 with
                | some (some w2) =>
                    match w2.get? p.2 with
                    | none => none
                    | some cj =>
                        if ci ≠ cj then some false
                        else checkNeighbors c a v1 w rest
                | some none => none
                | none => checkNeighbors c a v1 w rest
      else checkNeighbors c a v1 w rest

/-- The entry loop of CrosswordCreator.consistent, exact. -/
def consistentRun (c : Puzzle) (a : Assignment) :
    List (Variable × Option Word) → Option Bool
  | [] => some true
  | p :: rest =>
      match p.2 with
      | none => consistentRun c a rest
      | some w =>
          if w.isEmpty then consistentRun c a rest
          else if 1 < (a.map (fun q => q.2)).count (some w) then some false
          else if w.length ≠ p.1.length then some false
          else
            match checkNeighbors c a p.1 w (neighbors c p.1) with
            | some true => consistentRun c a rest
            | some false => some false
            | none => none

/-- CrosswordCreator.consistent, exact: none models a raised exception. -/
def consistent (c : Puzzle) (a : Assignment) : Option Bool :=
  consistentRun c a a

/-- The Python tuple comparison on (len(domain), -degree) used by
select_unassigned_variable. -/
def selKey (c : Puzzle) (d : DomainStore) (v w : Variable) : Bool :=
  decide ((d v).length < (d w).length) ||
    ((d v).length == (d w).length) &&
      decide ((neighbors c w).length ≤ (neighbors c v).length)

/-- CrosswordCreator.select_unassigned_variable: sort the variables by
(domain size, -degree) with a stable sort — Python sorted is stable, and
a stable sort by a total preorder is a unique function, here realised by
insertion sort — and return the first variable whose value is missing or
falsy. -/
def select_unassigned_variable (c : Puzzle) (d : DomainStore)
    (a : Assignment) : Option Variable :=
  (c.vars.insertionSort (fun v w => selKey c d v w = true)).find?
    (unassignedB a)

/-- CrosswordCreator.constrained_values: over each neighbor of var that
is not a key of the assignment, count the domain words that clash with
the given word at the overlap or equal it. -/
def constrained_values (c : Puzzle) (d : DomainStore) (a : Assignment)
    (w : Word) (v : Variable) : Nat :=
  (neighbors c v).foldl
    (fun acc nb =>
      if (keys a).contains nb then acc
      else
        match c.overlaps v nb with
        | some p =>
            acc + ((d nb).filter (fun w2 =>
              (w.get? p.1 != w2.get? p.2) || (w == w2))).length
        | none => acc)
    0

/-- CrosswordCreator.order_domain_values: the domain of var sorted by
ascending constrained_values (stable sort, realised by insertion sort). -/
def order_domain_values (c : Puzzle) (d : DomainStore) (v : Variable)
    (a : Assignment) : List Word :=
  (d v).insertionSort (fun w1 w2 =>
    constrained_values c d a w1 v ≤ constrained_values c d a w2 v)

/-- The value loop of CrosswordCreator.backtrack; go stands for the
recursive call. The Python test `if result:` is false both for None and
for an empty dict. -/
def btWords (c : Puzzle) (go : Assignment → Option Assignment)
    (a : Assignment) (v : Variable) : List Word → Option Assignment
  | [] => none
  | w :: ws =>
      if consistentB c (dinsert a v (some w)) then
        match go (dinsert a v (some w)) with
        | some r => if r.isEmpty then btWords c go a v ws else some r
        | none => btWords c go a v ws
      else btWords c go a v ws

/-- CrosswordCreator.backtrack, with explicit fuel. -/
def backtrack (c : Puzzle) (d : DomainStore) :
    Nat → Assignment → Option Assignment
  | 0, _ => none
  | fuel + 1, a =>
      if assignment_complete c a then some a
      else
        match select_unassigned_variable c d a with
        | none => none
        | some v => btWords c (backtrack c d fuel) a v (order_domain_values c d v a)

/-- CrosswordCreator.solve: node consistency, then ac3 — whose Boolean
result is discarded, only the mutated store is kept — then backtrack
from the empty assignment. -/
def solve (c : Puzzle) (fa fb : Nat) : Option Assignment :=
  match ac3 c (enforce_node_consistency (initDomains c)) none fa with
  | some r => backtrack c r.2 fb []
  | none => none

/-- solve instrumented with a flag recording that backtracking search
was invoked: the code calls backtrack unconditionally after ac3. -/
def solveInstr (c : Puzzle) (fa fb : Nat) : Option Assignment × Bool :=
  match ac3 c (enforce_node_consistency (initDomains c)) none fa with
  | some r => (backtrack c r.2 fb [], true)
  | none => (none, false)

/-- Arc-consistency support of x with respect to y in store d, as the
code checks it. -/
def supportedB (c : Puzzle) (d : DomainStore) (x y : Variable) : Bool :=
  match c.overlaps x y with
  | none => true
  | some p => (d x).all (hasSupport (d y) p.1 p.2)

/-- The arc-consistency invariant over the whole store: every word of
every domain has a distinct supporting word in every neighbor domain. -/
def ArcConsistent (c : Puzzle) (d : DomainStore) : Prop :=
  ∀ x ∈ c.vars, ∀ y ∈ neighbors c x, supportedB c d x y = true

/-- Support of x with respect to y, stated over the overlap indices:
every word remaining for x has a distinct agreeing partner for y. -/
def SuppP (c : Puzzle) (d : DomainStore) (x y : Variable) : Prop :=
  ∀ i j, c.overlaps x y = some (i, j) →
    ∀ wx ∈ d x, ∃ wy ∈ d y, wx.get? i = wy.get? j ∧ wx ≠ wy

instance (c : Puzzle) : Decidable (WF c) := by
  unfold WF; infer_instance

instance (c : Puzzle) (d : DomainStore) : Decidable (ArcConsistent c d) := by
  unfold ArcConsistent; infer_instance

/-! Concrete puzzles used as witnesses and counterexamples. -/

/-- A horizontal slot of length 3 starting at the origin. -/
def vA : Variable := ⟨0, 0, Direction.across, 3⟩

/-- A vertical slot of length 3 starting at the origin. -/
def vD : Variable := ⟨0, 0, Direction.down, 3⟩

def wCAT : Word := ['C', 'A', 'T']

def wCAR : Word := ['C', 'A', 'R']

def wDOG : Word := ['D', 'O', 'G']

/-- Two crossing slots sharing their first cell, vocabulary CAT / CAR. -/
def cCross : Puzzle :=
  ⟨[vA, vD], [wCAT, wCAR],
   fun x y =>
     if x = vA ∧ y = vD then some (0, 0)
     else if x = vD ∧ y = vA then some (0, 0) else none⟩

/-- An arc-consistent store on cCross: CAT across, CAR down. -/
def dCross : DomainStore := fun v => if v = vA then [wCAT] else [wCAR]

/-- Two crossing slots with vocabulary CAT / DOG: arc consistency wipes
out every domain. -/
def cBad : Puzzle :=
  ⟨[vA, vD], [wCAT, wDOG],
   fun x y =>
     if x = vA ∧ y = vD then some (0, 0)
     else if x = vD ∧ y = vA then some (0, 0) else none⟩

/-- A single slot of length 1. -/
def vE : Variable := ⟨0, 0, Direction.across, 1⟩

/-- One slot of length 1 whose vocabulary holds only the empty string. -/
def cEps : Puzzle := ⟨[vE], [[]], fun _ _ => none⟩

/-! Helper lemmas. -/

theorem hasSupport_iff {dy : List Word} {xi yj : Nat} {wx : Word} :
    hasSupport dy xi yj wx = true ↔
      ∃ wy ∈ dy, wx.get? xi = wy.get? yj ∧ wx ≠ wy := by
  simp [hasSupport]

/-- C4: after enforce_node_consistency, each domain holds exactly the
words of the initial domain whose length equals the slot length: every
remaining word has the matching length and no matching word is removed. -/
theorem C4_enforce_node_consistency (d : DomainStore) (v : Variable)
    (w : Word) :
    w ∈ enforce_node_consistency d v ↔ w ∈ d v ∧ w.length = v.length := by
  simp [enforce_node_consistency]

/-- C5: revise x y is a no-op returning false when the overlap is None;
otherwise it keeps in domain(x) exactly the words with a distinct
agreeing partner in domain(y), leaves domain(y) unchanged, and returns
true iff some word of domain(x) was removed. -/
theorem C5_revise (c : Puzzle) (d : DomainStore) (x y : Variable)
    (hxy : x ≠ y) :
    (c.overlaps x y = none → revise c d x y = (false, d)) ∧
    ((revise c d x y).2 y = d y) ∧
    (∀ i j, c.overlaps x y = some (i, j) →
      (∀ wx, wx ∈ (revise c d x y).2 x ↔
        wx ∈ d x ∧ ∃ wy ∈ d y, wx.get? i = wy.get? j ∧ wx ≠ wy) ∧
      ((revise c d x y).1 = true ↔
        ∃ wx ∈ d x, wx ∉ (revise c d x y).2 x)) := by
  refine ⟨fun h => by simp [revise, h], ?_, ?_⟩
  · cases hov : c.overlaps x y with
    | none => simp [revise, hov]
    | some p => simp [revise, hov, Ne.symm hxy]
  · intro i j hov
    constructor
    · intro wx
      simp [revise, hov, List.mem_filter, hasSupport_iff]
    · simp only [revise, hov, List.any_eq_true, Bool.not_eq_true']
      constructor
      · rintro ⟨wx, hmem, hns⟩
        exact ⟨wx, hmem, by simp [List.mem_filter, hmem, hns]⟩
      · rintro ⟨wx, hmem, hnk⟩
        refine ⟨wx, hmem, ?_⟩
        by_contra hs
        exact hnk (by simp_all [List.mem_filter])

/-- Witness for C5 at a concrete input: domain(y) is untouched. -/
theorem C5_revise_witness :
    (revise cCross dCross vA vD).2 vD = dCross vD :=
  (C5_revise cCross dCross vA vD (by decide)).2.1

theorem selKey_iff {c : Puzzle} {d : DomainStore} {v w : Variable} :
    selKey c d v w = true ↔
      ((d v).length < (d w).length ∨
        ((d v).length = (d w).length ∧
          (neighbors c w).length ≤ (neighbors c v).length)) := by
  simp [selKey]

theorem selKey_trans (c : Puzzle) (d : DomainStore) :
    ∀ a b e, selKey c d a b = true → selKey c d b e = true →
      selKey c d a e = true := by
  intro a b e hab hbe
  rw [selKey_iff] at hab hbe ⊢
  omega

theorem selKey_total (c : Puzzle) (d : DomainStore) :
    ∀ a b, (selKey c d a b || selKey c d b a) = true := by
  intro a b
  rw [Bool.or_eq_true, selKey_iff, selKey_iff]
  omega

/-- In a list sorted for R, the first element satisfying p is R-below
every element satisfying p. -/
theorem find?_min {α : Type} {R : α → α → Prop} {p : α → Bool} :
    ∀ {l : List α} {r : α}, l.Pairwise R →
      l.find? p = some r → ∀ w ∈ l, p w = true → r = w ∨ R r w := by
  intro l
  induction l with
  | nil => intro r _ h; simp at h
  | cons x t ih =>
    intro r hp hf w hw hpw
    cases hpx : p x with
    | true =>
      rw [List.find?_cons, hpx] at hf
      cases hf
      rcases List.mem_cons.mp hw with hwx | hwt
      · exact Or.inl hwx.symm
      · exact Or.inr ((List.pairwise_cons.mp hp).1 w hwt)
    | false =>
      rw [List.find?_cons, hpx] at hf
      rcases List.mem_cons.mp hw with hwx | hwt
      · rw [hwx] at hpw; rw [hpw] at hpx; cases hpx
      · exact ih (List.pairwise_cons.mp hp).2 hf w hwt hpw

/-- C7: whenever some puzzle variable is unassigned (in the sense of the
code: missing key or falsy value), select_unassigned_variable returns an
unassigned variable of minimal domain size among the unassigned ones,
and of maximal degree among those tied on domain size. -/
theorem C7_select_unassigned (c : Puzzle) (d : DomainStore) (a : Assignment)
    (h : ∃ v ∈ c.vars, unassignedB a v = true) :
    ∃ r, select_unassigned_variable c d a = some r ∧ r ∈ c.vars ∧
      unassignedB a r = true ∧
      ∀ w ∈ c.vars, unassignedB a w = true →
        (d r).length < (d w).length ∨
          ((d r).length = (d w).length ∧
            (neighbors c w).length ≤ (neighbors c r).length) := by
  obtain ⟨v, hv, hvu⟩ := h
  have hperm :
      (c.vars.insertionSort (fun v w => selKey c d v w = true)).Perm c.vars :=
    List.perm_insertionSort _ _
  have hvmem : v ∈ c.vars.insertionSort (fun v w => selKey c d v w = true) :=
    hperm.mem_iff.mpr hv
  have hsome : ((c.vars.insertionSort
      (fun v w => selKey c d v w = true)).find? (unassignedB a)).isSome := by
    rw [List.find?_isSome]
    exact ⟨v, hvmem, hvu⟩
  obtain ⟨r, hr⟩ := Option.isSome_iff_exists.mp hsome
  refine ⟨r, hr, hperm.mem_iff.mp (List.mem_of_find?_eq_some hr),
    List.find?_some hr, ?_⟩
  intro w hw hwu
  have hsorted :
      (c.vars.insertionSort (fun v w => selKey c d v w = true)).Pairwise
        (fun v w => selKey c d v w = true) := by
    haveI hto : IsTotal Variable (fun v w => selKey c d v w = true) :=
      ⟨fun a b => by
        have := selKey_total c d a b
        rw [Bool.or_eq_true] at this
        exact this⟩
    haveI htr : IsTrans Variable (fun v w => selKey c d v w = true) :=
      ⟨fun a b e hab hbe => selKey_trans c d a b e hab hbe⟩
    exact List.sorted_insertionSort _ c.vars
  rcases find?_min hsorted hr w (hperm.mem_iff.mpr hw) hwu with he | hle
  · subst he
    exact Or.inr ⟨rfl, le_refl _⟩
  · exact selKey_iff.mp hle

/-- Witness for C7 on the crossing puzzle with an empty assignment. -/
theorem C7_select_unassigned_witness :
    ∃ r, select_unassigned_variable cCross dCross [] = some r ∧
      r ∈ cCross.vars ∧ unassignedB [] r = true ∧
      ∀ w ∈ cCross.vars, unassignedB [] w = true →
        (dCross r).length < (dCross w).length ∨
          ((dCross r).length = (dCross w).length ∧
            (neighbors cCross w).length ≤ (neighbors cCross r).length) :=
  C7_select_unassigned cCross dCross [] (by decide)

/-- C8: order_domain_values returns a permutation of the domain of var,
sorted in non-decreasing order of constrained_values (the rule-out count
over unassigned neighbors). -/
theorem C8_order_domain_values (c : Puzzle) (d : DomainStore) (v : Variable)
    (a : Assignment) :
    (order_domain_values c d v a).Perm (d v) ∧
    (order_domain_values c d v a).Pairwise (fun w1 w2 =>
      constrained_values c d a w1 v ≤ constrained_values c d a w2 v) := by
  constructor
  · exact List.perm_insertionSort _ _
  · unfold order_domain_values
    haveI hto : IsTotal Word (fun w1 w2 =>
        constrained_values c d a w1 v ≤ constrained_values c d a w2 v) :=
      ⟨fun a1 a2 => Nat.le_total _ _⟩
    haveI htr : IsTrans Word (fun w1 w2 =>
        constrained_values c d a w1 v ≤ constrained_values c d a w2 v) :=
      ⟨fun a1 a2 a3 h1 h2 => Nat.le_trans h1 h2⟩
    exact List.sorted_insertionSort _ (d v)

theorem neighbors_mem_vars {c : Puzzle} {x z : Variable}
    (h : z ∈ neighbors c x) : z ∈ c.vars :=
  (List.mem_filter.mp h).1

theorem neighbors_ne {c : Puzzle} {x z : Variable}
    (h : z ∈ neighbors c x) : z ≠ x := by
  have := (List.mem_filter.mp h).2
  rw [Bool.and_eq_true, bne_iff_ne] at this
  exact this.1

theorem neighbors_overlap_isSome {c : Puzzle} {x z : Variable}
    (h : z ∈ neighbors c x) : (c.overlaps x z).isSome := by
  have := (List.mem_filter.mp h).2
  rw [Bool.and_eq_true] at this
  exact this.2

theorem mem_neighbors {c : Puzzle} {x z : Variable} :
    z ∈ neighbors c x ↔ z ∈ c.vars ∧ z ≠ x ∧ (c.overlaps x z).isSome := by
  unfold neighbors
  rw [List.mem_filter, Bool.and_eq_true, bne_iff_ne]

theorem mem_allArcs {c : Puzzle} {p : Variable × Variable} :
    p ∈ allArcs c ↔
      p.1 ∈ c.vars ∧ p.2 ∈ c.vars ∧ p.1 ≠ p.2 ∧
        (c.overlaps p.1 p.2).isSome := by
  unfold allArcs
  rw [List.mem_flatMap]
  constructor
  · rintro ⟨v1, hv1, hm⟩
    rw [List.mem_map] at hm
    obtain ⟨v2, hv2, rfl⟩ := hm
    rw [List.mem_filter, Bool.and_eq_true, bne_iff_ne] at hv2
    exact ⟨hv1, hv2.1, hv2.2.1, hv2.2.2⟩
  · rintro ⟨h1, h2, hne, hs⟩
    refine ⟨p.1, h1, ?_⟩
    rw [List.mem_map]
    refine ⟨p.2, ?_, rfl⟩
    rw [List.mem_filter, Bool.and_eq_true, bne_iff_ne]
    exact ⟨h2, hne, hs⟩

/-- If ac3Go reports failure, some puzzle variable ends with an empty
domain (provided every queued arc starts at a puzzle variable). -/
theorem ac3Go_false_empty (c : Puzzle) :
    ∀ fuel (q : List (Variable × Variable)) (d d2 : DomainStore),
      (∀ p ∈ q, p.1 ∈ c.vars) →
      ac3Go c fuel q d = some (false, d2) →
      ∃ v ∈ c.vars, d2 v = [] := by
  intro fuel
  induction fuel with
  | zero =>
    intro q d d2 hq h
    cases q with
    | nil => simp [ac3Go] at h
    | cons p rest => simp [ac3Go] at h
  | succ n ih =>
    intro q d d2 hq h
    cases q with
    | nil => simp [ac3Go] at h
    | cons p rest =>
      obtain ⟨x, y⟩ := p
      rw [ac3Go] at h
      by_cases h1 : (revise c d x y).1 = true
      · rw [if_pos h1] at h
        by_cases h2 : (revise c d x y).2 x = []
        · rw [if_pos h2] at h
          have hd2 : (revise c d x y).2 = d2 :=
            congrArg Prod.snd (Option.some.inj h)
          refine ⟨x, hq (x, y) (List.mem_cons_self _ _), ?_⟩
          rw [← hd2]
          exact h2
        · rw [if_neg h2] at h
          refine ih _ _ _ ?_ h
          intro p hp
          rcases List.mem_append.mp hp with hl | hr
          · exact hq p (List.mem_cons_of_mem _ hl)
          · rw [List.mem_map] at hr
            obtain ⟨z, hz, rfl⟩ := hr
            exact neighbors_mem_vars (List.mem_filter.mp hz).1
      · rw [if_neg h1] at h
        exact ih rest d d2 (fun p hp => hq p (List.mem_cons_of_mem _ hp)) h

theorem lookupA_map_update_ne {t : Assignment} {k v : Variable}
    {ov : Option Word} (h : v ≠ k) :
    lookupA (t.map (fun p => if p.1 = k then (k, ov) else p)) v =
      lookupA t v := by
  induction t with
  | nil => rfl
  | cons p t iha =>
    rw [List.map_cons]
    by_cases hpk : p.1 = k
    · rw [if_pos hpk, lookupA, lookupA]
      rw [if_neg (show ¬((k, ov).1 = v) from fun he => h (he.symm)),
        if_neg (show ¬(p.1 = v) from fun he => h ((hpk ▸ he).symm))]
      exact iha
    · rw [if_neg hpk, lookupA, lookupA]
      by_cases hpv : p.1 = v
      · rw [if_pos hpv, if_pos hpv]
      · rw [if_neg hpv, if_neg hpv]
        exact iha

theorem lookupA_append_single_ne {t : Assignment} {k v : Variable}
    {ov : Option Word} (h : v ≠ k) :
    lookupA (t ++ [(k, ov)]) v = lookupA t v := by
  induction t with
  | nil =>
    rw [List.nil_append]
    show (if k = v then some ov else lookupA [] v) = lookupA [] v
    rw [if_neg (show ¬(k = v) from fun he => h (he.symm))]
  | cons p t iha =>
    rw [List.cons_append, lookupA, lookupA]
    by_cases hpv : p.1 = v
    · rw [if_pos hpv, if_pos hpv]
    · rw [if_neg hpv, if_neg hpv]
      exact iha

theorem lookupA_dinsert_ne {a : Assignment} {k v : Variable}
    {ov : Option Word} (h : v ≠ k) :
    lookupA (dinsert a k ov) v = lookupA a v := by
  unfold dinsert
  by_cases hc : (keys a).contains k = true
  · rw [if_pos hc]
    exact lookupA_map_update_ne h
  · rw [if_neg hc]
    exact lookupA_append_single_ne h

/-- When some puzzle variable has an empty domain and is unbound, the
backtracking search can never complete and returns none. -/
theorem backtrack_none_of_empty {c : Puzzle} {d : DomainStore}
    {v : Variable} (hv : v ∈ c.vars) (hd : d v = []) :
    ∀ fuel (a : Assignment), lookupA a v = none →
      backtrack c d fuel a = none := by
  intro fuel
  induction fuel with
  | zero => intro a _; rfl
  | succ n ih =>
    intro a ha
    rw [backtrack]
    have hcomp : ¬(assignment_complete c a = true) := by
      simp only [assignment_complete, List.all_eq_true, not_forall]
      refine ⟨v, ⟨hv, ?_⟩⟩
      rw [ha]
      simp
    rw [if_neg hcomp]
    cases hsel : select_unassigned_variable c d a with
    | none => rfl
    | some var =>
      show btWords c (backtrack c d n) a var
        (order_domain_values c d var a) = none
      by_cases hvv : var = v
      · subst hvv
        have hord : order_domain_values c d var a = [] := by
          unfold order_domain_values
          rw [hd]
          rfl
        rw [hord]
        rfl
      · have hvne : v ≠ var := fun he => hvv he.symm
        generalize order_domain_values c d var a = ws
        induction ws with
        | nil => rfl
        | cons w ws ihw =>
          rw [btWords]
          have hna : lookupA (dinsert a var (some w)) v = none := by
            rw [lookupA_dinsert_ne hvne]
            exact ha
          by_cases hcons : consistentB c (dinsert a var (some w)) = true
          · rw [if_pos hcons, ih _ hna]
            exact ihw
          · rw [if_neg hcons]
            exact ihw

/-- C9 (counterexample): an explicitly supplied empty worklist is not
processed as supplied — the Python truthiness test regenerates the full
arc queue, which here even performs revisions and fails. -/
theorem C9_counterexample :
    initialQueue cBad (some []) = [(vA, vD), (vD, vA)] ∧
    initialQueue cBad (some []) ≠ [] ∧
    (ac3 cBad (enforce_node_consistency (initDomains cBad))
      (some []) 20).map Prod.fst = some false := by
  decide

/-- C9 (amended): ac3 seeds the FIFO worklist with every ordered pair of
distinct overlapping variables when called with no worklist or with an
empty one; a non-empty explicit worklist is processed exactly as
supplied. -/
theorem C9_initial_worklist (c : Puzzle) (d : DomainStore) (fuel : Nat) :
    ac3 c d none fuel = ac3Go c fuel (allArcs c) d ∧
    ac3 c d (some []) fuel = ac3Go c fuel (allArcs c) d ∧
    ∀ arc rest, ac3 c d (some (arc :: rest)) fuel =
      ac3Go c fuel (arc :: rest) d :=
  ⟨rfl, rfl, fun _ _ => rfl⟩

/-- C1 (counterexample): on cBad, arc consistency fails (ac3 returns
false), yet backtracking search is still invoked — solve discards the
ac3 result. -/
theorem C1_counterexample :
    (ac3 cBad (enforce_node_consistency (initDomains cBad))
      none 20).map Prod.fst = some false ∧
    (solveInstr cBad 20 20).2 = true := by
  decide

/-- C1 (amended): when ac3 returns false during solve, solve still
returns the no-solution outcome none — but only because the emptied
domain starves the search; backtrack is invoked regardless. -/
theorem C1_solve_after_ac3_failure (c : Puzzle) (fa fb : Nat)
    (h : (ac3 c (enforce_node_consistency (initDomains c))
      none fa).map Prod.fst = some false) :
    solve c fa fb = none := by
  cases hac : ac3 c (enforce_node_consistency (initDomains c)) none fa with
  | none => rw [hac] at h; simp at h
  | some r =>
    obtain ⟨r1, r2⟩ := r
    rw [hac] at h
    rw [Option.map_some'] at h
    have h1 : r1 = false := Option.some.inj h
    subst h1
    have hfe : ∃ v ∈ c.vars, r2 v = [] := by
      refine ac3Go_false_empty c fa (initialQueue c none)
        (enforce_node_consistency (initDomains c)) r2 ?_ hac
      intro p hp
      have hpa : p ∈ allArcs c := hp
      exact (mem_allArcs.mp hpa).1
    obtain ⟨v, hv, hve⟩ := hfe
    unfold solve
    rw [hac]
    exact backtrack_none_of_empty hv hve fb [] rfl

/-- Witness for C1 (amended): on cBad, solve returns none. -/
theorem C1_solve_after_ac3_failure_witness : solve cBad 20 20 = none :=
  C1_solve_after_ac3_failure cBad 20 20 (by decide)

theorem lookupA_mem : ∀ {a : Assignment} {k : Variable} {ov : Option Word},
    lookupA a k = some ov → (k, ov) ∈ a := by
  intro a
  induction a with
  | nil => intro k ov h; cases h
  | cons p t ih =>
    intro k ov h
    rw [lookupA] at h
    by_cases hp : p.1 = k
    · rw [if_pos hp] at h
      have hov : p.2 = ov := Option.some.inj h
      rw [List.mem_cons]
      exact Or.inl (by rw [← hp, ← hov])
    · rw [if_neg hp] at h
      exact List.mem_cons_of_mem _ (ih h)

theorem contains_lookupA {a : Assignment} {k : Variable} :
    (keys a).contains k = true ↔ (lookupA a k).isSome = true := by
  induction a with
  | nil => simp [keys, lookupA]
  | cons p t ih =>
    by_cases hp : p.1 = k
    · simp [keys, lookupA, hp]
    · simp only [keys, List.map_cons, List.contains_cons, lookupA,
        if_neg hp, Bool.or_eq_true, beq_iff_eq]
      constructor
      · rintro (he | ht)
        · exact absurd he.symm hp
        · exact ih.mp ht
      · intro hs
        exact Or.inr (ih.mpr hs)

theorem boundOk_iff {p : Variable × Option Word} :
    boundOk p = true ↔ ∃ u : Word, p.2 = some u ∧ u.length = p.1.length := by
  obtain ⟨v, ov⟩ := p
  cases ov with
  | none => simp [boundOk]
  | some u => simp [boundOk]

/-- The exact neighbor loop of consistent cannot raise on a well-formed
puzzle when every bound word has the length of its slot. -/
theorem checkNeighbors_isSome {c : Puzzle} {a : Assignment}
    {v1 : Variable} {w : Word} (hwf : WF c) (hv1 : v1 ∈ c.vars)
    (hw : w.length = v1.length)
    (hvals : ∀ p ∈ a, boundOk p = true) :
    ∀ l : List Variable, (∀ z ∈ l, z ∈ neighbors c v1) →
      (checkNeighbors c a v1 w l).isSome = true := by
  intro l
  induction l with
  | nil => intro _; rfl
  | cons v2 rest ih =>
    intro hsub
    have hv2n : v2 ∈ neighbors c v1 := hsub v2 (List.mem_cons_self _ _)
    have hrest : ∀ z ∈ rest, z ∈ neighbors c v1 :=
      fun z hz => hsub z (List.mem_cons_of_mem _ hz)
    rw [checkNeighbors]
    by_cases hc : (keys a).contains v2 = true
    · rw [if_pos hc]
      obtain ⟨⟨i, j⟩, hov⟩ :=
        Option.isSome_iff_exists.mp (neighbors_overlap_isSome hv2n)
      obtain ⟨hnd, hlen, hirr, hsym, hbnd⟩ := hwf
      have hv2v : v2 ∈ c.vars := neighbors_mem_vars hv2n
      have hb := hbnd v1 hv1 v2 hv2v
      rw [hov] at hb
      simp only [Option.all_some, Bool.and_eq_true, decide_eq_true_eq] at hb
      obtain ⟨ci, hci⟩ : ∃ ci, w.get? i = some ci := by
        cases hgi : w.get? i with
        | none =>
          rw [List.get?_eq_none] at hgi
          rw [hw] at hgi
          omega
        | some ci => exact ⟨ci, rfl⟩
      obtain ⟨ov, hov2⟩ :=
        Option.isSome_iff_exists.mp (contains_lookupA.mp hc)
      obtain ⟨w2, hw2eq, hw2len⟩ :=
        boundOk_iff.mp (hvals (v2, ov) (lookupA_mem hov2))
      simp only at hw2eq hw2len
      obtain ⟨cj, hcj⟩ : ∃ cj, w2.get? j = some cj := by
        cases hgj : w2.get? j with
        | none =>
          rw [List.get?_eq_none] at hgj
          rw [hw2len] at hgj
          omega
        | some cj => exact ⟨cj, rfl⟩
      simp only [hov, hci, hov2, hw2eq, hcj]
      by_cases hcij : ci ≠ cj
      · rw [if_pos hcij]
        rfl
      · rw [if_neg hcij]
        exact ih hrest
    · rw [if_neg hc]
      exact ih hrest

/-- The exact entry loop of consistent cannot raise under the stated
preconditions. -/
theorem consistentRun_isSome {c : Puzzle} {a : Assignment}
    (hwf : WF c) (hkeys : ∀ p ∈ a, p.1 ∈ c.vars)
    (hvals : ∀ p ∈ a, boundOk p = true) :
    ∀ l : List (Variable × Option Word), (∀ p ∈ l, p ∈ a) →
      (consistentRun c a l).isSome = true := by
  intro l
  induction l with
  | nil => intro _; rfl
  | cons p rest ih =>
    intro hsub
    have hpa := hsub p (List.mem_cons_self _ _)
    have hrest : ∀ q ∈ rest, q ∈ a :=
      fun q hq => hsub q (List.mem_cons_of_mem _ hq)
    obtain ⟨u, hu, hul⟩ := boundOk_iff.mp (hvals p hpa)
    rw [consistentRun]
    simp only [hu]
    by_cases hue : u.isEmpty = true
    · rw [if_pos hue]
      exact ih hrest
    · rw [if_neg hue]
      by_cases hcnt : 1 < (a.map fun q => q.2).count (some u)
      · rw [if_pos hcnt]
        rfl
      · rw [if_neg hcnt, if_neg (show ¬(u.length ≠ p.1.length) from
          fun hne => hne hul)]
        have hcs := checkNeighbors_isSome hwf (hkeys p hpa) hul hvals
          (neighbors c p.1) (fun z hz => hz)
        obtain ⟨b, hb⟩ := Option.isSome_iff_exists.mp hcs
        simp only [hb]
        cases b with
        | true => exact ih hrest
        | false => rfl

/-- C10: consistent is total — it reaches no failure branch (no raised
exception, all string indexing in bounds) whenever every entry of the
assignment binds a puzzle slot to a non-None word whose length equals
the slot length. -/
theorem C10_consistent_total (c : Puzzle) (a : Assignment)
    (hwf : WF c) (hkeys : ∀ p ∈ a, p.1 ∈ c.vars)
    (hvals : ∀ p ∈ a, boundOk p = true) :
    (consistent c a).isSome = true :=
  consistentRun_isSome hwf hkeys hvals a (fun _ hp => hp)

/-- Witness for C10 on the crossing puzzle with both slots bound. -/
theorem C10_consistent_total_witness :
    (consistent cCross [(vA, some wCAT), (vD, some wCAR)]).isSome = true :=
  C10_consistent_total cCross [(vA, some wCAT), (vD, some wCAR)]
    (by decide) (by decide) (by decide)

theorem mem_dinsert {a : Assignment} {k : Variable} {ov : Option Word}
    {p : Variable × Option Word} (h : p ∈ dinsert a k ov) :
    p ∈ a ∨ p = (k, ov) := by
  unfold dinsert at h
  by_cases hc : (keys a).contains k = true
  · rw [if_pos hc] at h
    rw [List.mem_map] at h
    obtain ⟨q, hq, rfl⟩ := h
    by_cases hqk : q.1 = k
    · rw [if_pos hqk]
      exact Or.inr rfl
    · rw [if_neg hqk]
      exact Or.inl hq
  · rw [if_neg hc] at h
    rcases List.mem_append.mp h with ha | hs
    · exact Or.inl ha
    · exact Or.inr (List.mem_singleton.mp hs)

/-- What the consistent check guarantees for each entry holding a
non-empty word. -/
theorem consistentB_entry {c : Puzzle} {r : Assignment} {v : Variable}
    {w : Word} (hcons : consistentB c r = true) (hmem : (v, some w) ∈ r)
    (hwne : w ≠ []) :
    (r.map (fun q => q.2)).count (some w) ≤ 1 ∧ w.length = v.length ∧
      neighborsOk c r v w = true := by
  have hall := List.all_eq_true.mp hcons (v, some w) hmem
  simp only at hall
  have hie : w.isEmpty = false := by
    cases hie : w.isEmpty with
    | true => exact absurd (List.isEmpty_iff.mp hie) hwne
    | false => rfl
  rw [hie] at hall
  simp only [Bool.false_eq_true, if_false, Bool.and_eq_true,
    decide_eq_true_eq, beq_iff_eq] at hall
  exact ⟨hall.1.1, hall.1.2, hall.2⟩

theorem two_entries_count {r : Assignment} {v1 v2 : Variable} {w : Word}
    (h1 : (v1, some w) ∈ r) (h2 : (v2, some w) ∈ r) (hne : v1 ≠ v2) :
    2 ≤ (r.map (fun q => q.2)).count (some w) := by
  obtain ⟨s, t, rfl⟩ := List.append_of_mem h1
  have h2st : (v2, some w) ∈ s ∨ (v2, some w) ∈ t := by
    rcases List.mem_append.mp h2 with hs | hct
    · exact Or.inl hs
    · rcases List.mem_cons.mp hct with he | ht
      · exact absurd (congrArg Prod.fst he) (Ne.symm hne)
      · exact Or.inr ht
  rw [List.map_append, List.map_cons, List.count_append, List.count_cons]
  have hone : 1 ≤ (s.map (fun q => q.2)).count (some w) ∨
      1 ≤ (t.map (fun q => q.2)).count (some w) := by
    rcases h2st with hs | ht
    · exact Or.inl (List.one_le_count_iff.mpr
        (List.mem_map.mpr ⟨(v2, some w), hs, rfl⟩))
    · exact Or.inr (List.one_le_count_iff.mpr
        (List.mem_map.mpr ⟨(v2, some w), ht, rfl⟩))
  have hself : (some w == some w) = true := by simp
  rw [hself]
  simp only [if_true]
  omega

/-- The value loop of backtrack only propagates assignments that passed
the consistent check (or the incoming complete one). -/
theorem btWords_sound {c : Puzzle} {go : Assignment → Option Assignment}
    {a : Assignment} {v : Variable}
    (hgo : ∀ a2 r2, (∀ p ∈ a2, p.2 ≠ some ([] : Word)) →
      consistentB c a2 = true → go a2 = some r2 →
      (∀ p ∈ r2, p.2 ≠ some ([] : Word)) ∧
        assignment_complete c r2 = true ∧ consistentB c r2 = true)
    (hane : ∀ p ∈ a, p.2 ≠ some ([] : Word)) :
    ∀ l : List Word, (∀ w ∈ l, w ≠ ([] : Word)) →
      ∀ r, btWords c go a v l = some r →
        (∀ p ∈ r, p.2 ≠ some ([] : Word)) ∧
          assignment_complete c r = true ∧ consistentB c r = true := by
  intro l
  induction l with
  | nil => intro _ r h; cases h
  | cons w ws ihw =>
    intro hlne r h
    have hwsne : ∀ u ∈ ws, u ≠ ([] : Word) :=
      fun u hu => hlne u (List.mem_cons_of_mem _ hu)
    rw [btWords] at h
    by_cases hcons : consistentB c (dinsert a v (some w)) = true
    · rw [if_pos hcons] at h
      have hnane : ∀ p ∈ dinsert a v (some w), p.2 ≠ some ([] : Word) := by
        intro p hp
        rcases mem_dinsert hp with hpa | hpe
        · exact hane p hpa
        · rw [hpe]
          intro he
          exact hlne w (List.mem_cons_self _ _) (Option.some.inj he)
      cases hgo2 : go (dinsert a v (some w)) with
      | some r2 =>
        simp only [hgo2] at h
        by_cases hre : r2.isEmpty = true
        · rw [if_pos hre] at h
          exact ihw hwsne r h
        · rw [if_neg hre] at h
          have hr : r2 = r := Option.some.inj h
          subst hr
          exact hgo _ _ hnane hcons hgo2
      | none =>
        simp only [hgo2] at h
        exact ihw hwsne r h
    · rw [if_neg hcons] at h
      exact ihw hwsne r h

/-- Soundness of backtrack: whenever it returns an assignment and no
empty-string word is reachable, that assignment is complete and passes
the consistent check. -/
theorem backtrack_sound {c : Puzzle} {d : DomainStore}
    (hdne : ∀ v ∈ c.vars, ∀ w ∈ d v, w ≠ ([] : Word)) :
    ∀ fuel (a r : Assignment),
      (∀ p ∈ a, p.2 ≠ some ([] : Word)) →
      consistentB c a = true →
      backtrack c d fuel a = some r →
      (∀ p ∈ r, p.2 ≠ some ([] : Word)) ∧
        assignment_complete c r = true ∧ consistentB c r = true := by
  intro fuel
  induction fuel with
  | zero => intro a r _ _ h; cases h
  | succ n ih =>
    intro a r hane hacons h
    rw [backtrack] at h
    by_cases hcomp : assignment_complete c a = true
    · rw [if_pos hcomp] at h
      have hra : a = r := Option.some.inj h
      subst hra
      exact ⟨hane, hcomp, hacons⟩
    · rw [if_neg hcomp] at h
      cases hsel : select_unassigned_variable c d a with
      | none =>
        rw [hsel] at h
        exact Option.noConfusion h
      | some var =>
        rw [hsel] at h
        have h2 : btWords c (backtrack c d n) a var
            (order_domain_values c d var a) = some r := h
        have hvar : var ∈ c.vars := by
          unfold select_unassigned_variable at hsel
          exact (List.perm_insertionSort _ c.vars).mem_iff.mp
            (List.mem_of_find?_eq_some hsel)
        have hlne : ∀ w ∈ order_domain_values c d var a, w ≠ ([] : Word) := by
          intro w hw
          refine hdne var hvar w ?_
          exact (List.perm_insertionSort _ (d var)).mem_iff.mp hw
        exact btWords_sound ih hane _ hlne r h2

/-- From completeness plus the consistent check, the three semantic
properties of a returned assignment follow. -/
theorem complete_consistent_props {c : Puzzle} {r : Assignment}
    (hne : ∀ p ∈ r, p.2 ≠ some ([] : Word))
    (hcons : consistentB c r = true) :
    (∀ v1 ∈ c.vars, ∀ v2 ∈ c.vars, ∀ w1 w2 : Word, v1 ≠ v2 →
      lookupA r v1 = some (some w1) → lookupA r v2 = some (some w2) →
      w1 ≠ w2) ∧
    (∀ v ∈ c.vars, ∀ w : Word, lookupA r v = some (some w) →
      w.length = v.length) ∧
    (∀ x ∈ c.vars, ∀ y ∈ neighbors c x, ∀ i j, c.overlaps x y = some (i, j) →
      ∀ wx wy : Word, lookupA r x = some (some wx) →
        lookupA r y = some (some wy) → wx.get? i = wy.get? j) := by
  have hent : ∀ v (w : Word), lookupA r v = some (some w) →
      (v, some w) ∈ r ∧ w ≠ [] := by
    intro v w hl
    have hm := lookupA_mem hl
    refine ⟨hm, fun he => hne (v, some w) hm ?_⟩
    rw [he]
  refine ⟨?_, ?_, ?_⟩
  · intro v1 _ v2 _ w1 w2 hne12 hl1 hl2
    intro hww
    subst hww
    obtain ⟨hm1, hne1⟩ := hent v1 w1 hl1
    obtain ⟨hm2, _⟩ := hent v2 w1 hl2
    have hcnt := (consistentB_entry hcons hm1 hne1).1
    have h2 := two_entries_count hm1 hm2 hne12
    omega
  · intro v _ w hl
    obtain ⟨hm, hwne⟩ := hent v w hl
    exact (consistentB_entry hcons hm hwne).2.1
  · intro x _ y hy i j hov wx wy hlx hly
    obtain ⟨hmx, hxne⟩ := hent x wx hlx
    have hnok := (consistentB_entry hcons hmx hxne).2.2
    have hall := List.all_eq_true.mp hnok y hy
    have hcy : (keys r).contains y = true := by
      rw [contains_lookupA, hly]
      rfl
    rw [if_pos hcy] at hall
    simp only [hov, beq_iff_eq] at hall
    rw [hall]
    unfold overlapChar
    rw [hly]

/-- C2 (counterexample): the claim fails as stated — on a well-formed
puzzle whose vocabulary holds the empty string, backtrack returns an
assignment binding the slot of length 1 to the empty string, violating
the length property (the empty string is falsy in Python, so every
consistency check skips it). -/
theorem C2_counterexample :
    WF cEps ∧
    backtrack cEps (initDomains cEps) 2 [] =
      some [(vE, some ([] : Word))] ∧
    vE ∈ cEps.vars ∧
    lookupA [(vE, some ([] : Word))] vE = some (some ([] : Word)) ∧
    ¬(([] : Word).length = vE.length) := by
  decide

/-- C2 (amended): if no domain word of a puzzle variable is the empty
string and the starting assignment is consistent with no empty-string
value, then a returned assignment is complete and consistent: all words
pairwise distinct, each word of its slot length, and neighbors agreeing
at the overlap. -/
theorem C2_backtrack_sound (c : Puzzle) (d : DomainStore) (fuel : Nat)
    (a0 r : Assignment)
    (hdne : ∀ v ∈ c.vars, ∀ w ∈ d v, w ≠ ([] : Word))
    (ha0ne : ∀ p ∈ a0, p.2 ≠ some ([] : Word))
    (ha0c : consistentB c a0 = true)
    (h : backtrack c d fuel a0 = some r) :
    assignment_complete c r = true ∧
    (∀ v1 ∈ c.vars, ∀ v2 ∈ c.vars, ∀ w1 w2 : Word, v1 ≠ v2 →
      lookupA r v1 = some (some w1) → lookupA r v2 = some (some w2) →
      w1 ≠ w2) ∧
    (∀ v ∈ c.vars, ∀ w : Word, lookupA r v = some (some w) →
      w.length = v.length) ∧
    (∀ x ∈ c.vars, ∀ y ∈ neighbors c x, ∀ i j, c.overlaps x y = some (i, j) →
      ∀ wx wy : Word, lookupA r x = some (some wx) →
        lookupA r y = some (some wy) → wx.get? i = wy.get? j) := by
  obtain ⟨hrne, hrcomp, hrcons⟩ := backtrack_sound hdne fuel a0 r ha0ne ha0c h
  obtain ⟨hdist, hlen, hagree⟩ := complete_consistent_props hrne hrcons
  exact ⟨hrcomp, hdist, hlen, hagree⟩

/-- Witness for C2 (amended) on the crossing puzzle: backtrack returns
CAT across and CAR down, which is complete. -/
theorem C2_backtrack_sound_witness :
    assignment_complete cCross [(vA, some wCAT), (vD, some wCAR)] = true :=
  (C2_backtrack_sound cCross dCross 3 []
    [(vA, some wCAT), (vD, some wCAR)]
    (by decide) (by decide) (by decide) (by decide)).1

/-- A supported arc is not revised. -/
theorem revise_false_of_supported {c : Puzzle} {d : DomainStore}
    {x y : Variable} (h : supportedB c d x y = true) :
    (revise c d x y).1 = false := by
  unfold supportedB at h
  unfold revise
  cases hov : c.overlaps x y with
  | none => rfl
  | some p =>
    rw [hov] at h
    show (d x).any (fun wx => !(hasSupport (d y) p.1 p.2 wx)) = false
    rw [List.any_eq_false]
    intro wx hwx
    rw [Bool.not_eq_true, Bool.not_eq_false']
    exact List.all_eq_true.mp h wx hwx

/-- When every queued arc is supported, the worklist drains without any
change to the store. -/
theorem ac3Go_no_change {c : Puzzle} {d : DomainStore} :
    ∀ fuel (q : List (Variable × Variable)),
      (∀ p ∈ q, supportedB c d p.1 p.2 = true) → q.length ≤ fuel →
      ac3Go c fuel q d = some (true, d) := by
  intro fuel
  induction fuel with
  | zero =>
    intro q hq hlen
    cases q with
    | nil => rfl
    | cons p t => simp at hlen
  | succ n ih =>
    intro q hq hlen
    cases q with
    | nil => rfl
    | cons p t =>
      obtain ⟨x, y⟩ := p
      rw [ac3Go]
      rw [revise_false_of_supported (hq (x, y) (List.mem_cons_self _ _))]
      rw [if_neg (show ¬(false = true) from fun he => Bool.noConfusion he)]
      refine ih t (fun p hp => hq p (List.mem_cons_of_mem _ hp)) ?_
      rw [List.length_cons] at hlen
      omega

/-- C6: ac3 is idempotent — run with its default worklist on an already
arc-consistent store (with enough fuel for the seeded queue), it leaves
every domain unchanged and returns true. -/
theorem C6_ac3_idempotent (c : Puzzle) (d : DomainStore) (fuel : Nat)
    (hac : ArcConsistent c d) (hfuel : (allArcs c).length ≤ fuel) :
    ac3 c d none fuel = some (true, d) := by
  unfold ac3
  have hq : ∀ p ∈ initialQueue c none, supportedB c d p.1 p.2 = true := by
    intro p hp
    have hpa : p ∈ allArcs c := hp
    obtain ⟨h1, h2, hne, hs⟩ := mem_allArcs.mp hpa
    exact hac p.1 h1 p.2 (mem_neighbors.mpr ⟨h2, Ne.symm hne, hs⟩)
  exact ac3Go_no_change fuel (initialQueue c none) hq hfuel

/-- Witness for C6 on the crossing puzzle with the arc-consistent store
CAT across / CAR down. -/
theorem C6_ac3_idempotent_witness :
    ac3 cCross dCross none 20 = some (true, dCross) :=
  C6_ac3_idempotent cCross dCross 20 (by decide) (by decide)

/-- The classical AC-3 invariant: along the worklist loop, every
neighbor pair is either still queued or already supported; on success
the whole store is arc consistent. -/
theorem ac3Go_invariant {c : Puzzle} (hwf : WF c) :
    ∀ fuel (q : List (Variable × Variable)) (d d2 : DomainStore),
      (∀ p ∈ q, p.1 ∈ c.vars ∧ p.2 ∈ c.vars ∧ p.1 ≠ p.2) →
      (∀ x ∈ c.vars, ∀ y ∈ neighbors c x, (x, y) ∈ q ∨ SuppP c d x y) →
      ac3Go c fuel q d = some (true, d2) →
      ∀ x ∈ c.vars, ∀ y ∈ neighbors c x, SuppP c d2 x y := by
  obtain ⟨hnd, hlen, hirr, hsym, hbnd⟩ := hwf
  intro fuel
  induction fuel with
  | zero =>
    intro q d d2 hq hinv h
    cases q with
    | nil =>
      have hd : d = d2 := congrArg Prod.snd (Option.some.inj h)
      subst hd
      intro x hx y hy
      rcases hinv x hx y hy with hmem | hs
      · exact absurd hmem (List.not_mem_nil _)
      · exact hs
    | cons p t =>
      obtain ⟨x, y⟩ := p
      exact Option.noConfusion h
  | succ n ih =>
    intro q d d2 hq hinv h
    cases q with
    | nil =>
      have hd : d = d2 := congrArg Prod.snd (Option.some.inj h)
      subst hd
      intro x hx y hy
      rcases hinv x hx y hy with hmem | hs
      · exact absurd hmem (List.not_mem_nil _)
      · exact hs
    | cons p0 rest =>
      obtain ⟨x, y⟩ := p0
      obtain ⟨hxv, hyv, hxy⟩ := hq (x, y) (List.mem_cons_self _ _)
      have hqrest : ∀ p ∈ rest, p.1 ∈ c.vars ∧ p.2 ∈ c.vars ∧ p.1 ≠ p.2 :=
        fun p2 hp2 => hq p2 (List.mem_cons_of_mem _ hp2)
      rw [ac3Go] at h
      cases hov : c.overlaps x y with
      | none =>
        have hrev : revise c d x y = (false, d) := by
          unfold revise
          rw [hov]
        rw [hrev] at h
        rw [if_neg (show ¬((false, d).1 = true) from
          fun he => Bool.noConfusion he)] at h
        refine ih rest d d2 hqrest ?_ h
        intro a ha b hb
        rcases hinv a ha b hb with hmem | hs
        · rcases List.mem_cons.mp hmem with he | ht
          · right
            intro i j hov2 wx hwx
            have hax : a = x := congrArg Prod.fst he
            have hby : b = y := congrArg Prod.snd he
            rw [hax, hby, hov] at hov2
            exact Option.noConfusion hov2
          · exact Or.inl ht
        · exact Or.inr hs
      | some pij =>
        obtain ⟨i, j⟩ := pij
        have hrev : revise c d x y =
            ((d x).any (fun wx => !(hasSupport (d y) i j wx)),
             fun v => if v = x then (d x).filter (hasSupport (d y) i j)
               else d v) := by
          unfold revise
          rw [hov]
        by_cases hch : (revise c d x y).1 = true
        · rw [if_pos hch] at h
          by_cases hemp : (revise c d x y).2 x = []
          · rw [if_pos hemp] at h
            exact absurd (congrArg Prod.fst (Option.some.inj h))
              (fun he => Bool.noConfusion he)
          · rw [if_neg hemp] at h
            have f1 : (revise c d x y).2 x =
                (d x).filter (hasSupport (d y) i j) := by
              rw [hrev]
              simp
            have f2 : ∀ v, v ≠ x → (revise c d x y).2 v = d v := by
              intro v hv
              rw [hrev]
              simp [hv]
            refine ih _ _ _ ?_ ?_ h
            · intro p2 hp2
              rcases List.mem_append.mp hp2 with hl | hr
              · exact hqrest p2 hl
              · rw [List.mem_map] at hr
                obtain ⟨z, hz, rfl⟩ := hr
                have hzn : z ∈ neighbors c x := (List.mem_filter.mp hz).1
                exact ⟨neighbors_mem_vars hzn, hxv, neighbors_ne hzn⟩
            · intro a ha b hb
              by_cases hbx : b = x
              · have hxb : x = b := hbx.symm
                subst hxb
                by_cases hay : a = y
                · -- the popped arc reversed: support is preserved because
                  -- a removed word had no partner at all
                  rcases hinv a ha x hb with hmem | hs
                  · rcases List.mem_cons.mp hmem with he | ht
                    · exact absurd (congrArg Prod.snd he) hxy
                    · exact Or.inl (List.mem_append.mpr (Or.inl ht))
                  · right
                    intro i' j' hov2 wy hwy
                    have hovyx : c.overlaps a x = some (j, i) := by
                      rw [hay, hsym x hxv y hyv, hov]
                      rfl
                    rw [hovyx] at hov2
                    have h1 := Option.some.inj hov2
                    have hi' : j = i' := congrArg Prod.fst h1
                    have hj' : i = j' := congrArg Prod.snd h1
                    subst hi'
                    subst hj'
                    have hax : a ≠ x := by
                      rw [hay]
                      exact Ne.symm hxy
                    rw [f2 a hax] at hwy
                    obtain ⟨wx2, hwx2, heq, hne2⟩ := hs j i hovyx wy hwy
                    refine ⟨wx2, ?_, heq, hne2⟩
                    rw [f1, List.mem_filter]
                    refine ⟨hwx2, hasSupport_iff.mpr
                      ⟨wy, ?_, heq.symm, Ne.symm hne2⟩⟩
                    rw [← hay]
                    exact hwy
                · -- re-enqueued arc (a, x)
                  left
                  refine List.mem_append.mpr (Or.inr ?_)
                  rw [List.mem_map]
                  refine ⟨a, ?_, rfl⟩
                  rw [List.mem_filter]
                  constructor
                  · rw [mem_neighbors]
                    refine ⟨ha, Ne.symm (neighbors_ne hb), ?_⟩
                    obtain ⟨u, hu⟩ := Option.isSome_iff_exists.mp
                      (neighbors_overlap_isSome hb)
                    rw [hsym a ha x hxv, hu]
                    rfl
                  · rw [bne_iff_ne]
                    exact hay
              · by_cases hax : a = x
                · have hxa : x = a := hax.symm
                  subst hxa
                  by_cases hby : b = y
                  · have hyb : y = b := hby.symm
                    subst hyb
                    -- the popped arc itself: exactly what revise enforced
                    right
                    intro i' j' hov2 wx hwx
                    rw [hov] at hov2
                    have h1 := Option.some.inj hov2
                    have hi' : i = i' := congrArg Prod.fst h1
                    have hj' : j = j' := congrArg Prod.snd h1
                    subst hi'
                    subst hj'
                    rw [f1, List.mem_filter] at hwx
                    obtain ⟨wy2, hwy2, heq, hne2⟩ := hasSupport_iff.mp hwx.2
                    refine ⟨wy2, ?_, heq, hne2⟩
                    rw [f2 y (Ne.symm hxy)]
                    exact hwy2
                  · -- arcs (x, b) with b ≠ y: shrinking domain(x) only
                    -- weakens the obligation
                    rcases hinv x ha b hb with hmem | hs
                    · rcases List.mem_cons.mp hmem with he | ht
                      · exact absurd (congrArg Prod.snd he) hby
                      · exact Or.inl (List.mem_append.mpr (Or.inl ht))
                    · right
                      intro i' j' hov2 wx hwx
                      rw [f1, List.mem_filter] at hwx
                      obtain ⟨wy2, hwy2, heq, hne2⟩ := hs i' j' hov2 wx hwx.1
                      refine ⟨wy2, ?_, heq, hne2⟩
                      rw [f2 b hbx]
                      exact hwy2
                · -- arcs not touching x: both domains unchanged
                  rcases hinv a ha b hb with hmem | hs
                  · rcases List.mem_cons.mp hmem with he | ht
                    · exact absurd (congrArg Prod.fst he) hax
                    · exact Or.inl (List.mem_append.mpr (Or.inl ht))
                  · right
                    intro i' j' hov2 wa hwa
                    rw [f2 a hax] at hwa
                    obtain ⟨wb, hwb, heq, hne2⟩ := hs i' j' hov2 wa hwa
                    refine ⟨wb, ?_, heq, hne2⟩
                    rw [f2 b hbx]
                    exact hwb
        · -- no revision: the popped arc was already supported
          rw [if_neg hch] at h
          refine ih rest d d2 hqrest ?_ h
          intro a ha b hb
          rcases hinv a ha b hb with hmem | hs
          · rcases List.mem_cons.mp hmem with he | ht
            · right
              have haxe : x = a := (congrArg Prod.fst he).symm
              have hbye : y = b := (congrArg Prod.snd he).symm
              subst haxe
              subst hbye
              intro i' j' hov2 wx hwx
              rw [hov] at hov2
              have h1 := Option.some.inj hov2
              have hi' : i = i' := congrArg Prod.fst h1
              have hj' : j = j' := congrArg Prod.snd h1
              subst hi'
              subst hj'
              have hall : hasSupport (d y) i j wx = true := by
                cases hb2 : hasSupport (d y) i j wx with
                | true => rfl
                | false =>
                  exfalso
                  apply hch
                  rw [hrev]
                  show ((d x).any fun w => !(hasSupport (d y) i j w)) = true
                  rw [List.any_eq_true]
                  exact ⟨wx, hwx, by rw [hb2]; rfl⟩
              exact hasSupport_iff.mp hall
            · exact Or.inl ht
          · exact Or.inr hs

/-- C3: whenever ac3 run with its default worklist returns true on a
well-formed puzzle, the resulting store satisfies the support invariant:
every word left for x has, in every neighbor domain, an agreeing word
distinct from it. -/
theorem C3_ac3_arc_consistency (c : Puzzle) (d : DomainStore) (fuel : Nat)
    (d2 : DomainStore) (hwf : WF c)
    (h : ac3 c d none fuel = some (true, d2)) :
    ∀ x ∈ c.vars, ∀ y ∈ neighbors c x, ∀ i j,
      c.overlaps x y = some (i, j) →
      ∀ wx ∈ d2 x, ∃ wy ∈ d2 y, wx.get? i = wy.get? j ∧ wx ≠ wy := by
  have hqwf : ∀ p ∈ allArcs c, p.1 ∈ c.vars ∧ p.2 ∈ c.vars ∧ p.1 ≠ p.2 := by
    intro p hp
    obtain ⟨h1, h2, hne, _⟩ := mem_allArcs.mp hp
    exact ⟨h1, h2, hne⟩
  have hinv0 : ∀ x ∈ c.vars, ∀ y ∈ neighbors c x,
      (x, y) ∈ allArcs c ∨ SuppP c d x y := by
    intro x hx y hy
    exact Or.inl (mem_allArcs.mpr ⟨hx, neighbors_mem_vars hy,
      Ne.symm (neighbors_ne hy), neighbors_overlap_isSome hy⟩)
  have h2 : ac3Go c fuel (allArcs c) d = some (true, d2) := h
  have hmain := ac3Go_invariant hwf fuel (allArcs c) d d2 hqwf hinv0 h2
  intro x hx y hy i j hov wx hwx
  exact hmain x hx y hy i j hov wx hwx

/-- Witness for C3 on the crossing puzzle: ac3 succeeds leaving the
store CAT across / CAR down, and CAT has its distinct partner CAR. -/
theorem C3_ac3_arc_consistency_witness :
    ∃ wy ∈ dCross vD, wCAT.get? 0 = wy.get? 0 ∧ wCAT ≠ wy :=
  C3_ac3_arc_consistency cCross dCross 20 dCross (by decide) rfl
    vA (by decide) vD (by decide) 0 0 (by decide) wCAT (by decide)

end CrosswordGen
